import Mathlib

/-!
Verification development for the Ente cryptographic core (Rust sources).

Shallow embedding of the code under scrutiny:
- the pure SecretStream implementation of
  rust/core/src/crypto/impl_pure/stream.rs (ChaCha20, Poly1305, the
  stateful push and pull operations);
- the adaptive Argon2id parameter search of rust/core/src/crypto/argon.rs;
- the base64 decoding paths of rust/core/src/crypto/mod.rs and
  mobile/packages/rust/rust/src/api/auth.rs;
- the envelope decryption pipeline of
  mobile/packages/rust/rust/src/api/auth.rs;
- the SRP client state checks of rust/core/src/auth/srp.rs;
- the chat datastore operations of rust/llmchat-db/src/db.rs.

Bytes are modelled as natural numbers below 256; byte strings and text
strings are lists of such numbers (text as ASCII codes).  Machine integers
use explicit reductions modulo two to the word size where overflow matters.
-/

set_option maxRecDepth 100000
set_option maxHeartbeats 2000000

namespace EnteSpec

/-! ## Byte and word primitives -/

/-- Addition of 32-bit words, reduced modulo two to the 32. -/
def add32 (a b : Nat) : Nat := (a + b) % 4294967296

/-- Left rotation of a 32-bit word by `r` bits. -/
def rotl32 (x r : Nat) : Nat :=
  ((x <<< r) ||| (x >>> (32 - r))) % 4294967296

/-- Little-endian value of a byte list (first byte is least significant). -/
def leNum : List Nat → Nat
  | [] => 0
  | b :: rest => b + 256 * leNum rest

/-- Little-endian byte list of length `n` for the value `x`. -/
def leBytes : Nat → Nat → List Nat
  | 0, _ => []
  | n + 1, x => (x % 256) :: leBytes n (x / 256)

/-- XOR of two byte lists, pointwise. -/
def zipXor (a b : List Nat) : List Nat := List.zipWith (· ^^^ ·) a b

/-! ## ChaCha20 block function (RFC 8439, as used by the chacha20 crate)

The chacha20 crate `ChaCha20::new(key, nonce)` starts the 32-bit block
counter at 0; `seek (64 * j)` positions the keystream at block `j`. -/

/-- One ChaCha20 quarter round on positions `a b c d` of a 16-word state. -/
def quarterRound (st : List Nat) (a b c d : Nat) : List Nat :=
  let sa := st.getD a 0
  let sb := st.getD b 0
  let sc := st.getD c 0
  let sd := st.getD d 0
  let sa1 := add32 sa sb
  let sd1 := rotl32 (sd ^^^ sa1) 16
  let sc1 := add32 sc sd1
  let sb1 := rotl32 (sb ^^^ sc1) 12
  let sa2 := add32 sa1 sb1
  let sd2 := rotl32 (sd1 ^^^ sa2) 8
  let sc2 := add32 sc1 sd2
  let sb2 := rotl32 (sb1 ^^^ sc2) 7
  ((((st.set a sa2).set b sb2).set c sc2).set d sd2)

/-- One ChaCha20 double round: four column rounds then four diagonal rounds. -/
def doubleRound (st : List Nat) : List Nat :=
  let st := quarterRound st 0 4 8 12
  let st := quarterRound st 1 5 9 13
  let st := quarterRound st 2 6 10 14
  let st := quarterRound st 3 7 11 15
  let st := quarterRound st 0 5 10 15
  let st := quarterRound st 1 6 11 12
  let st := quarterRound st 2 7 8 13
  quarterRound st 3 4 9 14

/-- Twenty ChaCha20 rounds (ten double rounds). -/
def chachaRounds (st : List Nat) : List Nat :=
  (List.range 10).foldl (fun s _ => doubleRound s) st

/-- Read the 32-bit little-endian word at byte offset `4 * i` of `bytes`. -/
def leWord (bytes : List Nat) (i : Nat) : Nat :=
  leNum ((bytes.drop (4 * i)).take 4)

/-- Initial ChaCha20 state for a 32-byte key, 32-bit counter and 12-byte nonce. -/
def chachaInit (key : List Nat) (counter : Nat) (nonce : List Nat) : List Nat :=
  [1634760805, 857760878, 2036477234, 1797285236] ++
    (List.range 8).map (leWord key) ++
    [counter % 4294967296] ++
    (List.range 3).map (leWord nonce)

/-- The 64-byte ChaCha20 keystream block for `(key, counter, nonce)`. -/
def chacha20Block (key : List Nat) (counter : Nat) (nonce : List Nat) : List Nat :=
  let init := chachaInit key counter nonce
  let final := List.zipWith add32 (chachaRounds init) init
  final.flatMap (leBytes 4)

/-- The first `len` keystream bytes starting at block `blk`: the chacha20
crate cipher produces the stream one 64-byte block at a time and
`apply_keystream` consumes it sequentially after a `seek` to block `blk`. -/
def keystreamBytes (key nonce : List Nat) (blk len : Nat) : List Nat :=
  (((List.range (len / 64 + 1)).flatMap
      (fun j => chacha20Block key (blk + j) nonce)).take len)

/-! ## Poly1305 (as used through `universal_hash::update_padded`)

The Rust helpers `poly1305_update_padded` and `poly1305_update_len` only
ever feed complete 16-byte blocks to the poly1305 crate (short inputs are
zero-filled into a whole block first), so every block is processed as a
full block: the implicit 1 bit sits at position 128. -/

/-- The Poly1305 prime modulus, two to the 130 minus 5. -/
def p1305 : Nat := 1361129467683753853853498429727072845819

/-- Clamp the Poly1305 `r` value. -/
def clampR (r : Nat) : Nat := r &&& 21267647620597763993911028882763415551

/-- Accumulate full 16-byte Poly1305 blocks.  Inputs produced by the code
always have length a multiple of 16; a shorter leftover is ignored. -/
def polyAcc (r : Nat) (acc : Nat) : List Nat → Nat
  | b0 :: b1 :: b2 :: b3 :: b4 :: b5 :: b6 :: b7 ::
    b8 :: b9 :: b10 :: b11 :: b12 :: b13 :: b14 :: b15 :: rest =>
      polyAcc r
        ((acc + leNum [b0, b1, b2, b3, b4, b5, b6, b7,
                       b8, b9, b10, b11, b12, b13, b14, b15]
              + 340282366920938463463374607431768211456) * r % p1305)
        rest
  | _ => acc

/-- Poly1305 MAC of `msg` under a 32-byte one-time key: 16 output bytes. -/
def poly1305 (key msg : List Nat) : List Nat :=
  let r := clampR (leNum (key.take 16))
  let s := leNum (key.drop 16)
  leBytes 16 ((polyAcc r 0 msg + s) % 340282366920938463463374607431768211456)

/-- Zero-pad a byte list to a multiple of 16 bytes (no-op when already
aligned, in particular for the empty list). -/
def pad16 (l : List Nat) : List Nat :=
  l ++ List.replicate ((16 - l.length % 16) % 16) 0

/-! ## SecretStream state and per-message operations

Translated from `StreamEncryptor::push_with_ad`, `StreamDecryptor::pull_with_ad`
and `rekey` in rust/core/src/crypto/impl_pure/stream.rs.  The state is the
32-byte subkey `k` and the 12-byte nonce `counter(4, LE) ‖ inonce(8)`. -/

/-- Tag for a regular message. -/
def TAG_MESSAGE : Nat := 0

/-- Tag bit that triggers rekeying. -/
def TAG_REKEY : Nat := 2

/-- Tag for the final message of a stream. -/
def TAG_FINAL : Nat := 3

/-- Per-message overhead: one encrypted tag byte plus the 16-byte MAC. -/
def ABYTES : Nat := 17

/-- SecretStream cipher state: subkey and 12-byte nonce. -/
structure StreamState where
  k : List Nat
  nonce : List Nat
deriving DecidableEq

/-- Errors of the stream layer used by the claims. -/
inductive CryptoError where
  | ciphertextTooShort
  | streamPullFailed
deriving DecidableEq

/-- One-time Poly1305 key: the first 32 bytes of ChaCha20 block 0 of the
current state. -/
def polyKeyOf (st : StreamState) : List Nat :=
  (chacha20Block st.k 0 st.nonce).take 32

/-- The encrypted 64-byte tag block: `tag` followed by 63 zeros, XORed with
keystream block 1. -/
def tagBlockEnc (st : StreamState) (tag : Nat) : List Nat :=
  zipXor (tag :: List.replicate 63 0) (chacha20Block st.k 1 st.nonce)

/-- MAC input exactly as the implementation feeds it to Poly1305: padded
associated data, the encrypted tag block, the padded ciphertext, then each
8-byte little-endian length zero-filled into its own 16-byte block
(`poly1305_update_len` pads every length to a full block). -/
def macInputImpl (ad tagBlock ct : List Nat) (mlen : Nat) : List Nat :=
  pad16 ad ++ tagBlock ++ pad16 ct ++
    pad16 (leBytes 8 ad.length) ++ pad16 (leBytes 8 (64 + mlen))

/-- Modelled from the spec: the MAC input of the libsodium secretstream
discipline that the code documents itself as implementing (spec section 4.6
step 4 and claim C1): padded associated data, the full encrypted tag block,
the padded ciphertext, then `len(ad)` and `64 + mlen` as two adjacent
8-byte little-endian fields forming a single final 16-byte block. -/
def macInputSpec (ad tagBlock ct : List Nat) (mlen : Nat) : List Nat :=
  pad16 ad ++ tagBlock ++ pad16 ct ++
    leBytes 8 ad.length ++ leBytes 8 (64 + mlen)

/-- Advance the nonce after a message: XOR the first 8 MAC bytes into the
nonce suffix and increment the 32-bit counter (wrapping). -/
def stepNonce (st : StreamState) (mac : List Nat) : Nat × StreamState :=
  let inonce := zipXor (st.nonce.drop 4) (mac.take 8)
  let newCounter := (leNum (st.nonce.take 4) + 1) % 4294967296
  (newCounter, { k := st.k, nonce := leBytes 4 newCounter ++ inonce })

/-- Rekey: XOR `k ‖ inonce` with the ChaCha20 keystream of the current
state (40 bytes of block 0), install the result, and reset the counter to 1. -/
def rekey (st : StreamState) : StreamState :=
  let buf := zipXor (st.k ++ st.nonce.drop 4) (keystreamBytes st.k st.nonce 0 40)
  { k := buf.take 32, nonce := leBytes 4 1 ++ buf.drop 32 }

/-- `StreamEncryptor::push_with_ad`: returns the output chunk
`encrypted_tag ‖ ciphertext ‖ MAC` and the successor state. -/
def pushWithAd (st : StreamState) (m ad : List Nat) (isFinal : Bool) :
    List Nat × StreamState :=
  let tag := if isFinal then TAG_FINAL else TAG_MESSAGE
  let tagBlock := tagBlockEnc st tag
  let encryptedTag := tagBlock.headD 0
  let ct := zipXor m (keystreamBytes st.k st.nonce 2 m.length)
  let mac := poly1305 (polyKeyOf st) (macInputImpl ad tagBlock ct m.length)
  let next := stepNonce st mac
  let st2 := if tag &&& TAG_REKEY ≠ 0 ∨ next.1 = 0 then rekey next.2 else next.2
  (encryptedTag :: ct ++ mac, st2)

/-- The MAC stored in the final 16 bytes of a pulled chunk. -/
def storedMacOf (input : List Nat) : List Nat :=
  input.drop (1 + (input.length - ABYTES))

/-- The MAC the decryptor recomputes for `input` under state `st` and
associated data `ad` (the tag block keeps the received encrypted tag byte). -/
def computedMacOf (st : StreamState) (input ad : List Nat) : List Nat :=
  poly1305 (polyKeyOf st)
    (macInputImpl ad
      (input.headD 0 ::
        (zipXor (input.headD 0 :: List.replicate 63 0)
          (chacha20Block st.k 1 st.nonce)).drop 1)
      ((input.drop 1).take (input.length - ABYTES))
      (input.length - ABYTES))

/-- The decrypted tag byte of a pulled chunk: the first byte of the tag
block after XOR with keystream block 1. -/
def decTagOf (st : StreamState) (input : List Nat) : Nat :=
  (zipXor (input.headD 0 :: List.replicate 63 0)
    (chacha20Block st.k 1 st.nonce)).headD 0

/-- `StreamDecryptor::pull_with_ad`: returns the result together with the
successor state (the state is unchanged on any error). -/
def pullWithAd (st : StreamState) (input ad : List Nat) :
    Except CryptoError (List Nat × Nat) × StreamState :=
  if input.length < ABYTES then (.error .ciphertextTooShort, st)
  else if computedMacOf st input ad = storedMacOf input then
    (.ok (zipXor ((input.drop 1).take (input.length - ABYTES))
            (keystreamBytes st.k st.nonce 2 (input.length - ABYTES)),
          decTagOf st input),
      if decTagOf st input &&& TAG_REKEY ≠ 0 ∨
          (stepNonce st (storedMacOf input)).1 = 0 then
        rekey (stepNonce st (storedMacOf input)).2
      else (stepNonce st (storedMacOf input)).2)
  else (.error .streamPullFailed, st)

/-! ## Adaptive Argon2id parameter search

Translated from `derive_sensitive_key` in rust/core/src/crypto/argon.rs.
The Argon2id primitive itself lives in libsodium and is modelled as an
oracle `derive : mem → ops → Option key`; the constants are the libsodium
`crypto_pwhash` values quoted in the source comments and the spec table. -/

/-- Memory limit of the MODERATE tier (256 MiB). -/
def MEMLIMIT_MODERATE : Nat := 268435456

/-- Memory limit of the SENSITIVE tier (1 GiB). -/
def MEMLIMIT_SENSITIVE : Nat := 1073741824

/-- Operations limit of the SENSITIVE tier. -/
def OPSLIMIT_SENSITIVE : Nat := 4

/-- Minimum acceptable memory limit. -/
def MEMLIMIT_MIN : Nat := 8192

/-- Error of the adaptive derivation: the device cannot run Argon2id at any
acceptable parameter choice (`InvalidKeyDerivationParams` in the source). -/
inductive KdfError where
  | deviceIncapable
deriving DecidableEq

/-- The retry loop of `derive_sensitive_key`: while `mem_limit` is at least
`MEMLIMIT_MIN`, try the oracle; on failure halve the memory and double the
operations (32-bit wrapping multiplication as in Rust u32 arithmetic). -/
def deriveSensitiveLoop (derive : Nat → Nat → Option (List Nat)) :
    Nat → Nat → Except KdfError (List Nat × Nat × Nat)
  | memLimit, opsLimit =>
    if h : MEMLIMIT_MIN ≤ memLimit then
      match derive memLimit opsLimit with
      | some key => .ok (key, memLimit, opsLimit)
      | none => deriveSensitiveLoop derive (memLimit / 2) (opsLimit * 2 % 4294967296)
    else .error .deviceIncapable
  termination_by memLimit _ => memLimit
  decreasing_by
    simp only [MEMLIMIT_MIN] at h
    omega

/-- `derive_sensitive_key`: start at the MODERATE memory limit with the
SENSITIVE operations limit scaled by `MEMLIMIT_SENSITIVE / MEMLIMIT_MODERATE`
and run the retry loop. -/
def deriveSensitiveKey (derive : Nat → Nat → Option (List Nat)) :
    Except KdfError (List Nat × Nat × Nat) :=
  deriveSensitiveLoop derive MEMLIMIT_MODERATE
    (OPSLIMIT_SENSITIVE * (MEMLIMIT_SENSITIVE / MEMLIMIT_MODERATE))

/-! ## Base64 (base64 crate engines, as the code configures them)

`decode_b64` in rust/core/src/crypto/mod.rs uses the
`general_purpose::STANDARD` engine; the token decoder in
mobile/packages/rust/rust/src/api/auth.rs tries `URL_SAFE` and then
`STANDARD`.  Both engines use the default configuration: canonical padding
required, non-zero trailing bits rejected.  Strings are lists of ASCII
codes; 61 is the code of the padding character. -/

/-- The standard base64 alphabet (RFC 4648 section 4) as ASCII codes. -/
def stdAlphabet : List Nat :=
  (List.range 26).map (· + 65) ++ (List.range 26).map (· + 97) ++
    (List.range 10).map (· + 48) ++ [43, 47]

/-- The URL-safe base64 alphabet (RFC 4648 section 5) as ASCII codes. -/
def urlAlphabet : List Nat :=
  (List.range 26).map (· + 65) ++ (List.range 26).map (· + 97) ++
    (List.range 10).map (· + 48) ++ [45, 95]

/-- Index of `c` in the alphabet `A`, when present. -/
def b64Index (A : List Nat) (c : Nat) : Option Nat :=
  match A with
  | [] => none
  | a :: rest => if a = c then some 0 else (b64Index rest c).map (· + 1)

/-- ASCII symbol for the 6-bit value `v` in the alphabet `A`. -/
def b64Sym (A : List Nat) (v : Nat) : Nat := A.getD v 0

/-- Base64 encoding with padding over alphabet `A` (ASCII output). -/
def b64encode (A : List Nat) : List Nat → List Nat
  | a :: b :: c :: rest =>
      b64Sym A (a / 4) :: b64Sym A (a % 4 * 16 + b / 16) ::
        b64Sym A (b % 16 * 4 + c / 64) :: b64Sym A (c % 64) :: b64encode A rest
  | [a, b] =>
      [b64Sym A (a / 4), b64Sym A (a % 4 * 16 + b / 16), b64Sym A (b % 16 * 4), 61]
  | [a] => [b64Sym A (a / 4), b64Sym A (a % 4 * 16), 61, 61]
  | [] => []

/-- Base64 decoding over alphabet `A` with the default engine behaviour:
the input length must be a multiple of four (canonical padding), padding
may appear only at the end, and non-zero trailing bits are rejected. -/
def b64decode (A : List Nat) : List Nat → Option (List Nat)
  | c1 :: c2 :: c3 :: c4 :: rest =>
      match b64Index A c1, b64Index A c2 with
      | some v1, some v2 =>
        if c3 = 61 then
          if c4 = 61 ∧ rest = [] ∧ v2 % 16 = 0 then some [v1 * 4 + v2 / 16]
          else none
        else
          match b64Index A c3 with
          | some v3 =>
            if c4 = 61 then
              if rest = [] ∧ v3 % 4 = 0 then
                some [v1 * 4 + v2 / 16, v2 % 16 * 16 + v3 / 4]
              else none
            else
              match b64Index A c4 with
              | some v4 =>
                (b64decode A rest).map
                  (fun tail =>
                    (v1 * 4 + v2 / 16) :: (v2 % 16 * 16 + v3 / 4) ::
                      (v3 % 4 * 64 + v4) :: tail)
              | none => none
          | none => none
      | _, _ => none
  | [] => some []
  | _ => none

/-- `ente_core::crypto::decode_b64`: the STANDARD engine only. -/
def decodeB64 (s : List Nat) : Option (List Nat) := b64decode stdAlphabet s

/-- `ente_core::crypto::encode_b64`: the STANDARD engine. -/
def encodeB64 (x : List Nat) : List Nat := b64encode stdAlphabet x

/-- The plain-token decoder of `decrypt_secrets_internal`: URL_SAFE first,
then STANDARD. -/
def tokenDecode (s : List Nat) : Option (List Nat) :=
  match b64decode urlAlphabet s with
  | some x => some x
  | none => b64decode stdAlphabet s

/-! ## Envelope decryption pipeline

Translated from `decrypt_secrets_internal` in
mobile/packages/rust/rust/src/api/auth.rs.  The secretbox and sealed-box
primitives are modelled as oracles; every error constructor corresponds to
one distinct error string of the source. -/

/-- Key attributes provided by the server (base64-encoded fields). -/
structure KeyAttributes where
  encryptedKey : List Nat
  keyDecryptionNonce : List Nat
  publicKey : List Nat
  encryptedSecretKey : List Nat
  secretKeyDecryptionNonce : List Nat
deriving DecidableEq

/-- Errors of `decrypt_secrets_internal`, one constructor per distinct
error string produced by the source. -/
inductive AuthError where
  | badEncryptedKey
  | badKeyDecryptionNonce
  | incorrectPassword
  | badEncryptedSecretKey
  | badSecretKeyDecryptionNonce
  | failedToDecryptSecretKey
  | badPublicKey
  | badEncryptedToken
  | failedToDecryptToken
  | badTokenEncoding
  | noTokenProvided
deriving DecidableEq

/-- Decrypted secrets returned on success. -/
structure AuthSecrets where
  masterKey : List Nat
  secretKey : List Nat
  token : List Nat
deriving DecidableEq

/-- `decrypt_secrets_internal`: decrypt the master key under the KEK, the
secret key under the master key, then the token (sealed box or plain
base64).  `sbOpen ct nonce key` models `secretbox::decrypt` and
`sealedOpen ct pk sk` models `sealed::open`. -/
def decryptSecretsInternal
    (sbOpen : List Nat → List Nat → List Nat → Option (List Nat))
    (sealedOpen : List Nat → List Nat → List Nat → Option (List Nat))
    (kek : List Nat) (ka : KeyAttributes)
    (encryptedToken plainToken : Option (List Nat)) :
    Except AuthError AuthSecrets :=
  match decodeB64 ka.encryptedKey with
  | none => .error .badEncryptedKey
  | some encKey =>
    match decodeB64 ka.keyDecryptionNonce with
    | none => .error .badKeyDecryptionNonce
    | some keyNonce =>
      match sbOpen encKey keyNonce kek with
      | none => .error .incorrectPassword
      | some masterKey =>
        match decodeB64 ka.encryptedSecretKey with
        | none => .error .badEncryptedSecretKey
        | some encSecretKey =>
          match decodeB64 ka.secretKeyDecryptionNonce with
          | none => .error .badSecretKeyDecryptionNonce
          | some skNonce =>
            match sbOpen encSecretKey skNonce masterKey with
            | none => .error .failedToDecryptSecretKey
            | some secretKey =>
              match encryptedToken with
              | some encTok =>
                match decodeB64 ka.publicKey with
                | none => .error .badPublicKey
                | some pubKey =>
                  match decodeB64 encTok with
                  | none => .error .badEncryptedToken
                  | some sealedTok =>
                    match sealedOpen sealedTok pubKey secretKey with
                    | none => .error .failedToDecryptToken
                    | some token =>
                      .ok { masterKey := masterKey, secretKey := secretKey,
                            token := token }
              | none =>
                match plainToken with
                | some plain =>
                  match tokenDecode plain with
                  | none => .error .badTokenEncoding
                  | some token =>
                    .ok { masterKey := masterKey, secretKey := secretKey,
                          token := token }
                | none => .error .noTokenProvided

/-! ## SRP client state checks

Translated from `SrpAuthClient::compute_m1` and `verify_m2` in
rust/core/src/auth/srp.rs.  The verifier produced by the srp crate is
modelled by its observable data: the client proof and the expected server
proof. -/

/-- Modelled from the srp crate interface: the data of a
`SrpClientVerifier` that `compute_m1` and `verify_m2` observe. -/
structure SrpVerifier where
  clientProof : List Nat
  serverProof : List Nat
deriving DecidableEq

/-- The SRP client state relevant to the claims: the optional verifier
installed by `set_b`. -/
structure SrpAuthClient where
  verifier : Option SrpVerifier
deriving DecidableEq

/-- Outcome of `compute_m1`: the source either panics through `expect`
(in every build profile) or returns the proof bytes. -/
inductive M1Outcome where
  | panicked
  | ok (proof : List Nat)
deriving DecidableEq

/-- Outcome of `verify_m2`: panic through `expect`, success, or the
server-proof-mismatch error. -/
inductive M2Outcome where
  | panicked
  | ok
  | srpError
deriving DecidableEq

/-- `SrpAuthClient::compute_m1`: `expect` on the verifier, then the proof. -/
def computeM1 (c : SrpAuthClient) : M1Outcome :=
  match c.verifier with
  | none => .panicked
  | some v => .ok v.clientProof

/-- `SrpAuthClient::verify_m2`: `expect` on the verifier, then compare the
server proof. -/
def verifyM2 (c : SrpAuthClient) (serverM2 : List Nat) : M2Outcome :=
  match c.verifier with
  | none => .panicked
  | some v => if serverM2 = v.serverProof then .ok else .srpError

/-- Whether an `M1Outcome` is the panic outcome. -/
def M1Outcome.isPanic : M1Outcome → Bool
  | .panicked => true
  | _ => false

/-- Whether an `M2Outcome` is the panic outcome. -/
def M2Outcome.isPanic : M2Outcome → Bool
  | .panicked => true
  | _ => false

/-! ## Subkey derivation

Translated from `derive_subkey` in rust/core/src/crypto/kdf.rs.  The
BLAKE2b-based `crypto_kdf_derive_from_key` lives in libsodium and is
modelled as an oracle taking the subkey length, the subkey id, the 8-byte
context and the key. -/

/-- Context bytes used by the KDF. -/
def CONTEXT_BYTES : Nat := 8

/-- Minimum subkey length. -/
def SUBKEY_BYTES_MIN : Nat := 16

/-- Maximum subkey length. -/
def SUBKEY_BYTES_MAX : Nat := 64

/-- Key length expected by the KDF. -/
def KDF_KEY_BYTES : Nat := 32

/-- Errors of `derive_subkey`. -/
inductive SubkeyError where
  | invalidKeyLength
  | invalidParams
  | derivationFailed
deriving DecidableEq

/-- The 8-byte context actually passed to libsodium: the first
`min (length context) 8` bytes of `context`, zero-filled to 8 bytes. -/
def ctx8 (context : List Nat) : List Nat :=
  let ctxLen := min context.length CONTEXT_BYTES
  context.take ctxLen ++ List.replicate (CONTEXT_BYTES - ctxLen) 0

/-- `derive_subkey`: validate the key length and the subkey length range,
truncate or zero-fill the context to 8 bytes, and call the KDF oracle. -/
def deriveSubkey (kdf : Nat → Nat → List Nat → List Nat → Option (List Nat))
    (key : List Nat) (subkeyLen subkeyId : Nat) (context : List Nat) :
    Except SubkeyError (List Nat) :=
  if key.length ≠ KDF_KEY_BYTES then .error .invalidKeyLength
  else if ¬(SUBKEY_BYTES_MIN ≤ subkeyLen ∧ subkeyLen ≤ SUBKEY_BYTES_MAX) then
    .error .invalidParams
  else
    match kdf subkeyLen subkeyId (ctx8 context) key with
    | none => .error .derivationFailed
    | some subkey => .ok subkey

/-! ## Chat datastore

Translated from `ChatDb` in rust/llmchat-db/src/db.rs.  The SQLite tables
are modelled as lists of rows; the DDL of schema.rs is not under src, so
the schema constraints (UUID primary keys, the foreign key from messages
to sessions) are modelled from the spec section 4.12.  UUIDs are opaque
naturals, timestamps are integers (microseconds), encrypted blobs are
opaque byte lists. -/

/-- Message sender, from models.rs. -/
inductive Sender where
  | selfUser
  | other
deriving DecidableEq

/-- `Sender::try_from`: only the ASCII strings `self` and `other` parse. -/
def senderTryFrom (value : List Nat) : Option Sender :=
  if value = [115, 101, 108, 102] then some .selfUser
  else if value = [111, 116, 104, 101, 114] then some .other
  else none

/-- A row of the `sessions` table. -/
structure SessionRow where
  uuid : Nat
  title : List Nat
  createdAt : Int
  updatedAt : Int
  remoteId : Option (List Nat)
  needsSync : Bool
  deletedAt : Option Int
deriving DecidableEq

/-- A row of the `messages` table. -/
structure MessageRow where
  uuid : Nat
  sessionUuid : Nat
  parent : Option Nat
  sender : Sender
  text : List Nat
  attachments : Option (List Nat)
  createdAt : Int
  deletedAt : Option Int
deriving DecidableEq

/-- The database state: both tables. -/
structure DbState where
  sessions : List SessionRow
  messages : List MessageRow
deriving DecidableEq

/-- Entity kinds listed by `get_pending_deletions`. -/
inductive EntityType where
  | session
  | message
deriving DecidableEq

/-- Datastore errors relevant to the claims. -/
inductive DbError where
  | notFoundSession
  | invalidSender (value : List Nat)
  | foreignKeyViolation
deriving DecidableEq

/-- Rows returned by `SELECT ... WHERE session_uuid = ? AND deleted_at IS
NULL` (the row shape used by `get_session`). -/
def liveSessionPred (uuid : Nat) (s : SessionRow) : Bool :=
  s.uuid = uuid ∧ s.deletedAt = none

/-- `get_session`: the live row for `uuid`, when present. -/
def getSession (st : DbState) (uuid : Nat) : Option SessionRow :=
  st.sessions.find? (liveSessionPred uuid)

/-- Insertion into a list sorted by `updated_at DESC`. -/
def insertByUpdatedDesc (s : SessionRow) : List SessionRow → List SessionRow
  | [] => [s]
  | t :: rest =>
      if t.updatedAt ≤ s.updatedAt then s :: t :: rest
      else t :: insertByUpdatedDesc s rest

/-- Sort sessions by `updated_at DESC` (insertion sort). -/
def sortByUpdatedDesc : List SessionRow → List SessionRow
  | [] => []
  | s :: rest => insertByUpdatedDesc s (sortByUpdatedDesc rest)

/-- `list_sessions`: non-tombstoned rows ordered by `updated_at DESC`. -/
def listSessions (st : DbState) : List SessionRow :=
  sortByUpdatedDesc (st.sessions.filter (fun s => s.deletedAt = none))

/-- Ordering key comparison for `ORDER BY created_at ASC, message_uuid ASC`. -/
def msgOrderLe (a b : MessageRow) : Bool :=
  a.createdAt < b.createdAt ∨ (a.createdAt = b.createdAt ∧ a.uuid ≤ b.uuid)

/-- Insertion into a list sorted by `(created_at, message_uuid)` ascending. -/
def insertByMsgOrder (m : MessageRow) : List MessageRow → List MessageRow
  | [] => [m]
  | t :: rest =>
      if msgOrderLe m t then m :: t :: rest
      else t :: insertByMsgOrder m rest

/-- Sort messages by `(created_at, message_uuid)` ascending. -/
def sortByMsgOrder : List MessageRow → List MessageRow
  | [] => []
  | m :: rest => insertByMsgOrder m (sortByMsgOrder rest)

/-- `get_messages`: non-deleted messages of the session in order. -/
def getMessages (st : DbState) (sessionUuid : Nat) : List MessageRow :=
  sortByMsgOrder (st.messages.filter
    (fun m => m.sessionUuid = sessionUuid ∧ m.deletedAt = none))

/-- Effect on one session row of `UPDATE sessions SET deleted_at = ?,
updated_at = ?, needs_sync = 1 WHERE session_uuid = ? AND deleted_at IS
NULL`. -/
def tombstoneSession (uuid : Nat) (now : Int) (s : SessionRow) : SessionRow :=
  if liveSessionPred uuid s then
    { s with deletedAt := some now, updatedAt := now, needsSync := true }
  else s

/-- Effect on one message row of `UPDATE messages SET deleted_at = ?
WHERE session_uuid = ? AND deleted_at IS NULL`. -/
def tombstoneMessage (uuid : Nat) (now : Int) (m : MessageRow) : MessageRow :=
  if m.sessionUuid = uuid ∧ m.deletedAt = none then
    { m with deletedAt := some now }
  else m

/-- `delete_session`: inside one transaction, tombstone every non-deleted
message of the session, then tombstone the live session row setting
`updated_at` and `needs_sync`; when no live session row matched, the
transaction rolls back and `NotFound` is returned. -/
def deleteSession (st : DbState) (uuid : Nat) (now : Int) :
    Except DbError DbState :=
  let messages := st.messages.map (tombstoneMessage uuid now)
  let matched := st.sessions.countP (liveSessionPred uuid)
  let sessions := st.sessions.map (tombstoneSession uuid now)
  if matched = 0 then .error .notFoundSession
  else .ok { sessions := sessions, messages := messages }

/-- `get_pending_deletions`: tombstoned sessions with a remote id, then
tombstoned messages whose session has a remote id. -/
def getPendingDeletions (st : DbState) : List (EntityType × Nat) :=
  (st.sessions.filter (fun s => s.remoteId ≠ none ∧ s.deletedAt ≠ none)).map
      (fun s => (EntityType.session, s.uuid)) ++
    (st.messages.filter (fun m => m.deletedAt ≠ none ∧
        st.sessions.any (fun s => s.uuid = m.sessionUuid ∧ s.remoteId ≠ none))).map
      (fun m => (EntityType.message, m.uuid))

/-- Effect on one session row of `UPDATE sessions SET updated_at = ?,
needs_sync = 1 WHERE session_uuid = ? AND deleted_at IS NULL`. -/
def bumpSession (uuid : Nat) (now : Int) (s : SessionRow) : SessionRow :=
  if liveSessionPred uuid s then
    { s with updatedAt := now, needsSync := true }
  else s

/-- `insert_message`: validate the sender, insert the message row (the
foreign key to `sessions` is modelled from the spec schema and only
requires the session row to exist, tombstoned or not), then run the
session-update statement, which is filtered by `deleted_at IS NULL` and
whose affected-row count is not checked. -/
def insertMessage (st : DbState) (sessionUuid : Nat) (sender : List Nat)
    (textBlob : List Nat) (parent : Option Nat)
    (attachmentsJson : Option (List Nat)) (msgUuid : Nat) (now : Int) :
    Except DbError (MessageRow × DbState) :=
  match senderTryFrom sender with
  | none => .error (.invalidSender sender)
  | some snd =>
    if st.sessions.any (fun s => s.uuid = sessionUuid) then
      let row : MessageRow :=
        { uuid := msgUuid, sessionUuid := sessionUuid, parent := parent,
          sender := snd, text := textBlob, attachments := attachmentsJson,
          createdAt := now, deletedAt := none }
      let sessions := st.sessions.map (bumpSession sessionUuid now)
      .ok (row, { sessions := sessions, messages := st.messages ++ [row] })
    else .error .foreignKeyViolation

/-! ## Concrete inputs used by witnesses -/

/-- A concrete stream state: all-zero subkey, counter 1, zero nonce suffix. -/
def wStreamState : StreamState :=
  { k := List.replicate 32 0, nonce := leBytes 4 1 ++ List.replicate 8 0 }

/-- A concrete 17-byte chunk (all zeros) whose MAC does not verify under
`wStreamState`. -/
def wBadChunk : List Nat := List.replicate 17 0

/-- A concrete Argon2id oracle: derivation succeeds only at 16 MiB. -/
def wDerive (mem : Nat) (_ops : Nat) : Option (List Nat) :=
  if mem = 16777216 then some [7] else none

/-- Concrete key attributes whose base64 fields all decode to `[0]`
(every field is the ASCII string `AA==`). -/
def wKeyAttributes : KeyAttributes :=
  { encryptedKey := [65, 65, 61, 61], keyDecryptionNonce := [65, 65, 61, 61],
    publicKey := [65, 65, 61, 61], encryptedSecretKey := [65, 65, 61, 61],
    secretKeyDecryptionNonce := [65, 65, 61, 61] }

/-- A KDF oracle that echoes the context it receives. -/
def wKdf (_len _id : Nat) (ctx _key : List Nat) : Option (List Nat) := some ctx

/-- A concrete live session row with a remote id. -/
def wSessionLive : SessionRow :=
  { uuid := 1, title := [1], createdAt := 0, updatedAt := 0,
    remoteId := some [82], needsSync := false, deletedAt := none }

/-- A concrete non-deleted message of session 1. -/
def wMessage : MessageRow :=
  { uuid := 10, sessionUuid := 1, parent := none, sender := .selfUser,
    text := [2], attachments := none, createdAt := 0, deletedAt := none }

/-- A concrete database with one live synced session and one message. -/
def wDb : DbState := { sessions := [wSessionLive], messages := [wMessage] }

/-- The expected state after `delete_session` of session 1 at time 5. -/
def wDbDeleted : DbState :=
  { sessions :=
      [{ wSessionLive with
          deletedAt := some 5
          updatedAt := 5
          needsSync := true }],
    messages := [{ wMessage with deletedAt := some 5 }] }

/-- A concrete database whose only session is soft-deleted. -/
def wDbTombstoned : DbState :=
  { sessions := [{ wSessionLive with deletedAt := some 3 }], messages := [] }

/-- The message row inserted by the C9 witness. -/
def wInserted : MessageRow :=
  { uuid := 11, sessionUuid := 1, parent := none, sender := .selfUser,
    text := [9], attachments := none, createdAt := 7, deletedAt := none }

/-! ## Helper lemmas: lengths and XOR -/

theorem leBytes_length (n x : Nat) : (leBytes n x).length = n := by
  induction n generalizing x with
  | zero => rfl
  | succ n ih => simp [leBytes, ih]

theorem zipXor_length (a b : List Nat) :
    (zipXor a b).length = min a.length b.length := by
  simp [zipXor]

theorem zipXor_cons (x y : Nat) (a b : List Nat) :
    zipXor (x :: a) (y :: b) = (x ^^^ y) :: zipXor a b := by
  simp [zipXor]

theorem xor_xor_cancel (a b : Nat) : a ^^^ b ^^^ b = a := by
  rw [Nat.xor_assoc, Nat.xor_self, Nat.xor_zero]

theorem zipXor_zipXor (a : List Nat) :
    ∀ b : List Nat, a.length ≤ b.length → zipXor (zipXor a b) b = a := by
  induction a with
  | nil => intro b _; simp [zipXor]
  | cons x a ih =>
    intro b hb
    cases b with
    | nil => simp at hb
    | cons y b =>
      rw [zipXor_cons, zipXor_cons, xor_xor_cancel, ih b (by simpa using hb)]

theorem quarterRound_length (st : List Nat) (a b c d : Nat) :
    (quarterRound st a b c d).length = st.length := by
  simp [quarterRound]

theorem doubleRound_length (st : List Nat) :
    (doubleRound st).length = st.length := by
  simp [doubleRound, quarterRound_length]

theorem chachaRounds_length (st : List Nat) :
    (chachaRounds st).length = st.length := by
  show ((List.range 10).foldl (fun s _ => doubleRound s) st).length = st.length
  generalize List.range 10 = l
  induction l generalizing st with
  | nil => rfl
  | cons x l ih => simp [List.foldl_cons, ih, doubleRound_length]

theorem chachaInit_length (key : List Nat) (counter : Nat) (nonce : List Nat) :
    (chachaInit key counter nonce).length = 16 := by
  simp [chachaInit]

theorem flatMap_leBytes_length (l : List Nat) :
    (l.flatMap (leBytes 4)).length = 4 * l.length := by
  induction l with
  | nil => rfl
  | cons x l ih => simp [List.flatMap_cons, ih, leBytes_length]; ring

theorem chacha20Block_length (key : List Nat) (counter : Nat) (nonce : List Nat) :
    (chacha20Block key counter nonce).length = 64 := by
  show ((List.zipWith add32 (chachaRounds (chachaInit key counter nonce))
      (chachaInit key counter nonce)).flatMap (leBytes 4)).length = 64
  rw [flatMap_leBytes_length, List.length_zipWith, chachaRounds_length,
    chachaInit_length]
  rfl

theorem flatMap_block_length (f : Nat → List Nat) (hf : ∀ j, (f j).length = 64) :
    ∀ l : List Nat, (l.flatMap f).length = 64 * l.length := by
  intro l
  induction l with
  | nil => rfl
  | cons x l ih => simp [List.flatMap_cons, ih, hf]; ring

theorem keystreamBytes_length (key nonce : List Nat) (blk len : Nat) :
    (keystreamBytes key nonce blk len).length = len := by
  show ((((List.range (len / 64 + 1)).flatMap
      (fun j => chacha20Block key (blk + j) nonce)).take len)).length = len
  rw [List.length_take, flatMap_block_length _ (fun j => chacha20Block_length ..),
    List.length_range]
  omega

theorem chacha20Block_cons (key : List Nat) (counter : Nat) (nonce : List Nat) :
    ∃ c cs, chacha20Block key counter nonce = c :: cs ∧ cs.length = 63 := by
  have h := chacha20Block_length key counter nonce
  cases hb : chacha20Block key counter nonce with
  | nil => rw [hb] at h; simp at h
  | cons c cs =>
    rw [hb] at h
    exact ⟨c, cs, rfl, by simpa using h⟩

theorem poly1305_length (key msg : List Nat) : (poly1305 key msg).length = 16 := by
  simp [poly1305, leBytes_length]

/-! ## Stream roundtrip: pull inverts push on matching states -/

theorem pushWithAd_fst (st : StreamState) (m ad : List Nat) (fin : Bool) :
    (pushWithAd st m ad fin).1
      = (tagBlockEnc st (if fin then TAG_FINAL else TAG_MESSAGE)).headD 0
          :: zipXor m (keystreamBytes st.k st.nonce 2 m.length)
          ++ poly1305 (polyKeyOf st)
              (macInputImpl ad (tagBlockEnc st (if fin then TAG_FINAL else TAG_MESSAGE))
                (zipXor m (keystreamBytes st.k st.nonce 2 m.length)) m.length) := by
  rfl

theorem pushWithAd_fst_length (st : StreamState) (m ad : List Nat) (fin : Bool) :
    (pushWithAd st m ad fin).1.length = m.length + ABYTES := by
  rw [pushWithAd_fst]
  simp [poly1305_length, zipXor_length, keystreamBytes_length, ABYTES]

theorem tagBlockEnc_eq (st : StreamState) (tag : Nat) :
    ∀ c cs, chacha20Block st.k 1 st.nonce = c :: cs →
      tagBlockEnc st tag = (tag ^^^ c) :: zipXor (List.replicate 63 0) cs := by
  intro c cs h
  simp [tagBlockEnc, h, zipXor_cons]

theorem pull_push_roundtrip (st : StreamState) (m ad : List Nat) (fin : Bool) :
    pullWithAd st (pushWithAd st m ad fin).1 ad
      = (.ok (m, if fin then TAG_FINAL else TAG_MESSAGE), (pushWithAd st m ad fin).2) := by
  obtain ⟨c, cs, hb, hcs⟩ := chacha20Block_cons st.k 1 st.nonce
  set tag := if fin then TAG_FINAL else TAG_MESSAGE with htag
  set ks := keystreamBytes st.k st.nonce 2 m.length with hks
  set ct := zipXor m ks with hct
  set tb := tagBlockEnc st tag with htb
  set mac := poly1305 (polyKeyOf st) (macInputImpl ad tb ct m.length) with hmac
  have hksl : ks.length = m.length := keystreamBytes_length ..
  have hctl : ct.length = m.length := by
    rw [hct, zipXor_length, hksl, Nat.min_self]
  have hmacl : mac.length = 16 := poly1305_length ..
  have htbcons : tb = (tag ^^^ c) :: zipXor (List.replicate 63 0) cs := by
    rw [htb]; exact tagBlockEnc_eq st tag c cs hb
  have hheadtb : tb.headD 0 = tag ^^^ c := by rw [htbcons]; rfl
  have hout : (pushWithAd st m ad fin).1 = (tag ^^^ c) :: ct ++ mac := by
    rw [pushWithAd_fst, ← htag, ← hks, ← hct, ← htb, ← hmac, hheadtb]
  have hlen : ((tag ^^^ c) :: ct ++ mac).length = m.length + 17 := by
    simp [hctl, hmacl]
  have hmlen : ((tag ^^^ c) :: ct ++ mac).length - ABYTES = m.length := by
    rw [hlen]; rfl
  have hctx : (((tag ^^^ c) :: ct ++ mac).drop 1).take m.length = ct := by
    show (ct ++ mac).take m.length = ct
    rw [← hctl, List.take_left]
  have hstored : storedMacOf ((tag ^^^ c) :: ct ++ mac) = mac := by
    rw [storedMacOf, hmlen]
    show List.drop (1 + m.length) (((tag ^^^ c) :: ct) ++ mac) = mac
    exact List.drop_left' (by rw [List.length_cons, hctl, Nat.add_comm])
  have hhead : ((tag ^^^ c) :: ct ++ mac).headD 0 = tag ^^^ c := rfl
  have htbd : zipXor ((tag ^^^ c) :: List.replicate 63 0)
      (chacha20Block st.k 1 st.nonce) = tag :: zipXor (List.replicate 63 0) cs := by
    rw [hb, zipXor_cons, xor_xor_cancel]
  have hdectag : decTagOf st ((tag ^^^ c) :: ct ++ mac) = tag := by
    rw [decTagOf, hhead, htbd]; rfl
  have htagblock : (((tag ^^^ c) :: ct ++ mac).headD 0)
      :: (zipXor ((((tag ^^^ c) :: ct ++ mac).headD 0) :: List.replicate 63 0)
          (chacha20Block st.k 1 st.nonce)).drop 1 = tb := by
    rw [hhead, htbd, htbcons]
    rfl
  have hcomp : computedMacOf st ((tag ^^^ c) :: ct ++ mac) ad = mac := by
    rw [computedMacOf, hmlen, hctx, htagblock, hmac]
  have hplain : zipXor ct ks = m := by
    rw [hct, zipXor_zipXor m ks (le_of_eq hksl.symm)]
  rw [hout, pullWithAd, if_neg (by rw [hlen, ABYTES]; omega), if_pos (by
    rw [hcomp, hstored]), hmlen, hctx, hdectag, hstored, ← hks, hplain]
  have hpush2 : (pushWithAd st m ad fin).2
      = (if tag &&& TAG_REKEY ≠ 0 ∨ (stepNonce st mac).1 = 0 then
          rekey (stepNonce st mac).2 else (stepNonce st mac).2) := by
    rfl
  rw [hpush2]

/-! ## C1: per-message encryption discipline -/

/-- C1: the output of `push_with_ad` is `encrypted_tag ‖ ciphertext ‖ MAC`
and has length `|m| + 17`, but the MAC is NOT the Poly1305 of the libsodium
secretstream input layout the claim describes: at the all-zero state with
empty message and empty associated data, the MAC the code computes (each
8-byte length zero-filled into its own 16-byte block) differs from the
Poly1305 of the claimed input (the two 8-byte lengths adjacent in one
final block).  This exhibits the divergence of
`poly1305_update_len` from the libsodium discipline the module documents. -/
theorem push_mac_deviates_from_libsodium_layout :
    (pushWithAd wStreamState [] [] false).1
        = (tagBlockEnc wStreamState TAG_MESSAGE).headD 0
            :: poly1305 (polyKeyOf wStreamState)
                (macInputImpl [] (tagBlockEnc wStreamState TAG_MESSAGE) [] 0)
      ∧ (pushWithAd wStreamState [] [] false).1.length = 0 + ABYTES
      ∧ poly1305 (polyKeyOf wStreamState)
            (macInputImpl [] (tagBlockEnc wStreamState TAG_MESSAGE) [] 0)
          ≠ poly1305 (polyKeyOf wStreamState)
              (macInputSpec [] (tagBlockEnc wStreamState TAG_MESSAGE) [] 0) := by
  refine ⟨rfl, pushWithAd_fst_length wStreamState [] [] false, ?_⟩
  decide

/-! ## C3: authentication failure leaves the decryptor state unchanged -/

/-- C3: for every decryptor state and every input whose recomputed Poly1305
MAC does not match the stored MAC, `pull_with_ad` returns the
authentication error and leaves the state (subkey and 12-byte nonce)
exactly as it was; consequently pulling the correct next chunk (the output
of the matching encryptor state) afterwards still succeeds. -/
theorem pull_authfail_preserves_state (st : StreamState) (input ad : List Nat)
    (hlen : ABYTES ≤ input.length)
    (hmac : computedMacOf st input ad ≠ storedMacOf input) :
    pullWithAd st input ad = (.error .streamPullFailed, st)
      ∧ ∀ m fin, pullWithAd st (pushWithAd st m ad fin).1 ad
          = (.ok (m, if fin then TAG_FINAL else TAG_MESSAGE),
              (pushWithAd st m ad fin).2) := by
  constructor
  · rw [pullWithAd, if_neg (by omega), if_neg hmac]
  · intro m fin
    exact pull_push_roundtrip st m ad fin

/-- Witness for C3: a concrete state and a concrete tampered chunk. -/
theorem pull_authfail_preserves_state_witness :
    (ABYTES ≤ wBadChunk.length
        ∧ computedMacOf wStreamState wBadChunk [] ≠ storedMacOf wBadChunk)
      ∧ pullWithAd wStreamState wBadChunk []
          = (.error .streamPullFailed, wStreamState) := by
  have h1 : ABYTES ≤ wBadChunk.length := by decide
  have h2 : computedMacOf wStreamState wBadChunk [] ≠ storedMacOf wBadChunk := by
    decide
  exact ⟨⟨h1, h2⟩,
    (pull_authfail_preserves_state wStreamState wBadChunk [] h1 h2).1⟩

/-! ## C4: adaptive sensitive-key derivation -/

theorem deriveSensitiveLoop_exhausted (derive : Nat → Nat → Option (List Nat))
    (mem ops : Nat) (h : mem < MEMLIMIT_MIN) :
    deriveSensitiveLoop derive mem ops = .error .deviceIncapable := by
  rw [deriveSensitiveLoop]
  simp [Nat.not_le.mpr h]

theorem deriveSensitiveLoop_retry (derive : Nat → Nat → Option (List Nat))
    (mem ops : Nat) (h : MEMLIMIT_MIN ≤ mem) (hd : derive mem ops = none) :
    deriveSensitiveLoop derive mem ops
      = deriveSensitiveLoop derive (mem / 2) (ops * 2 % 4294967296) := by
  rw [deriveSensitiveLoop]
  simp [h, hd]

theorem deriveSensitiveLoop_success (derive : Nat → Nat → Option (List Nat))
    (mem ops : Nat) (k : List Nat) (h : MEMLIMIT_MIN ≤ mem)
    (hd : derive mem ops = some k) :
    deriveSensitiveLoop derive mem ops = .ok (k, mem, ops) := by
  rw [deriveSensitiveLoop]
  simp [h, hd]

theorem deriveSensitiveLoop_invariant (derive : Nat → Nat → Option (List Nat)) :
    ∀ f i k m o, 16 - i = f → i ≤ 16 →
      deriveSensitiveLoop derive (2 ^ (28 - i)) (2 ^ (4 + i)) = .ok (k, m, o) →
      derive m o = some k ∧ m * o = 4294967296 := by
  intro f
  induction f with
  | zero =>
    intro i k m o hf hi hloop
    have hi16 : i = 16 := by omega
    subst hi16
    rw [deriveSensitiveLoop_exhausted derive _ _ (by norm_num [MEMLIMIT_MIN])]
      at hloop
    simp at hloop
  | succ f ih =>
    intro i k m o hf hi hloop
    by_cases hi16 : i = 16
    · subst hi16
      rw [deriveSensitiveLoop_exhausted derive _ _ (by norm_num [MEMLIMIT_MIN])]
        at hloop
      simp at hloop
    · have hi15 : i ≤ 15 := by omega
      have hmem : MEMLIMIT_MIN ≤ 2 ^ (28 - i) := by
        calc MEMLIMIT_MIN = 2 ^ 13 := by norm_num [MEMLIMIT_MIN]
          _ ≤ 2 ^ (28 - i) := Nat.pow_le_pow_right (by norm_num) (by omega)
      cases hd : derive (2 ^ (28 - i)) (2 ^ (4 + i)) with
      | some key =>
        rw [deriveSensitiveLoop_success derive _ _ key hmem hd] at hloop
        simp only [Except.ok.injEq, Prod.mk.injEq] at hloop
        obtain ⟨hk, hm, ho⟩ := hloop
        subst hk hm ho
        refine ⟨hd, ?_⟩
        rw [← pow_add]
        have h32 : 28 - i + (4 + i) = 32 := by omega
        rw [h32]
        norm_num
      | none =>
        rw [deriveSensitiveLoop_retry derive _ _ hmem hd] at hloop
        have h2 : 2 ^ (28 - i) / 2 = 2 ^ (28 - (i + 1)) := by
          have hs : 28 - i = (28 - (i + 1)) + 1 := by omega
          rw [hs, pow_succ, Nat.mul_div_cancel _ (by norm_num)]
        have h3 : 2 ^ (4 + i) * 2 % 4294967296 = 2 ^ (4 + (i + 1)) := by
          have hs : 4 + (i + 1) = (4 + i) + 1 := by omega
          rw [hs, ← pow_succ]
          exact Nat.mod_eq_of_lt (by
            calc 2 ^ (4 + i + 1) ≤ 2 ^ 20 :=
              Nat.pow_le_pow_right (by norm_num) (by omega)
            _ < 4294967296 := by norm_num)
        rw [h2, h3] at hloop
        exact ih (i + 1) k m o (by omega) (by omega) hloop

/-- C4: `derive_sensitive_key` starts at `mem = MEMLIMIT_MODERATE` and
`ops = OPSLIMIT_SENSITIVE * (MEMLIMIT_SENSITIVE / MEMLIMIT_MODERATE)` (so the
product equals the sensitive work factor), halves the memory and doubles
the operations on every derivation failure, retries while
`MEMLIMIT_MIN ≤ mem`, returns the device-incapable error on exhaustion,
and on success returns the key with the parameters that produced it, whose
product still equals the sensitive work factor. -/
theorem deriveSensitiveKey_spec (derive : Nat → Nat → Option (List Nat)) :
    (deriveSensitiveKey derive
        = deriveSensitiveLoop derive MEMLIMIT_MODERATE
            (OPSLIMIT_SENSITIVE * (MEMLIMIT_SENSITIVE / MEMLIMIT_MODERATE))
      ∧ MEMLIMIT_MODERATE
            * (OPSLIMIT_SENSITIVE * (MEMLIMIT_SENSITIVE / MEMLIMIT_MODERATE))
          = MEMLIMIT_SENSITIVE * OPSLIMIT_SENSITIVE)
    ∧ (∀ mem ops, MEMLIMIT_MIN ≤ mem → derive mem ops = none →
        deriveSensitiveLoop derive mem ops
          = deriveSensitiveLoop derive (mem / 2) (ops * 2 % 4294967296))
    ∧ (∀ mem ops k, MEMLIMIT_MIN ≤ mem → derive mem ops = some k →
        deriveSensitiveLoop derive mem ops = .ok (k, mem, ops))
    ∧ (∀ mem ops, mem < MEMLIMIT_MIN →
        deriveSensitiveLoop derive mem ops = .error .deviceIncapable)
    ∧ (∀ k mem ops, deriveSensitiveKey derive = .ok (k, mem, ops) →
        derive mem ops = some k
          ∧ mem * ops = MEMLIMIT_SENSITIVE * OPSLIMIT_SENSITIVE) := by
  refine ⟨⟨rfl, by norm_num [MEMLIMIT_MODERATE, MEMLIMIT_SENSITIVE,
    OPSLIMIT_SENSITIVE]⟩,
    deriveSensitiveLoop_retry derive, deriveSensitiveLoop_success derive,
    deriveSensitiveLoop_exhausted derive, ?_⟩
  intro k mem ops hok
  have hstart : deriveSensitiveKey derive
      = deriveSensitiveLoop derive (2 ^ (28 - 0)) (2 ^ (4 + 0)) := by
    show deriveSensitiveLoop derive MEMLIMIT_MODERATE
        (OPSLIMIT_SENSITIVE * (MEMLIMIT_SENSITIVE / MEMLIMIT_MODERATE)) = _
    norm_num [MEMLIMIT_MODERATE, MEMLIMIT_SENSITIVE, OPSLIMIT_SENSITIVE]
  rw [hstart] at hok
  have h := deriveSensitiveLoop_invariant derive 16 0 k mem ops (by omega)
    (by omega) hok
  refine ⟨h.1, ?_⟩
  rw [h.2]
  norm_num [MEMLIMIT_SENSITIVE, OPSLIMIT_SENSITIVE]

/-- Witness for C4: with the concrete oracle that only succeeds at 16 MiB,
the loop succeeds there and is exhausted below the minimum. -/
theorem deriveSensitiveKey_spec_witness :
    deriveSensitiveLoop wDerive 4096 999 = .error .deviceIncapable
      ∧ deriveSensitiveLoop wDerive 16777216 256 = .ok ([7], 16777216, 256) := by
  have h := deriveSensitiveKey_spec wDerive
  exact ⟨h.2.2.2.1 4096 999 (by norm_num [MEMLIMIT_MIN]),
    h.2.2.1 16777216 256 [7] (by norm_num [MEMLIMIT_MIN]) (by norm_num [wDerive])⟩

/-! ## Base64 lemmas -/

theorem stdAlphabet_index : ∀ v < 64, b64Index stdAlphabet (b64Sym stdAlphabet v) = some v := by
  decide

theorem urlAlphabet_index : ∀ v < 64, b64Index urlAlphabet (b64Sym urlAlphabet v) = some v := by
  decide

theorem stdAlphabet_ne_pad : ∀ v < 64, b64Sym stdAlphabet v ≠ 61 := by
  decide

theorem urlAlphabet_ne_pad : ∀ v < 64, b64Sym urlAlphabet v ≠ 61 := by
  decide

theorem url_index_of_std_sym : ∀ w < 64,
    b64Index urlAlphabet (b64Sym stdAlphabet w) = none
      ∨ b64Index urlAlphabet (b64Sym stdAlphabet w)
          = b64Index stdAlphabet (b64Sym stdAlphabet w) := by
  decide

theorem b64_roundtrip (A : List Nat)
    (hidx : ∀ v < 64, b64Index A (b64Sym A v) = some v)
    (hne : ∀ v < 64, b64Sym A v ≠ 61) :
    ∀ x : List Nat, (∀ b ∈ x, b < 256) → b64decode A (b64encode A x) = some x
  | [], _ => rfl
  | [a], hx => by
    have ha : a < 256 := hx a (by simp)
    have h1 : a / 4 < 64 := by omega
    have h2 : a % 4 * 16 < 64 := by omega
    show b64decode A [b64Sym A (a / 4), b64Sym A (a % 4 * 16), 61, 61] = some [a]
    simp only [b64decode, hidx _ h1, hidx _ h2]
    have hmod : a % 4 * 16 % 16 = 0 := by omega
    simp [hmod]
    omega
  | [a, b], hx => by
    have ha : a < 256 := hx a (by simp)
    have hb : b < 256 := hx b (by simp)
    have h1 : a / 4 < 64 := by omega
    have h2 : a % 4 * 16 + b / 16 < 64 := by omega
    have h3 : b % 16 * 4 < 64 := by omega
    show b64decode A [b64Sym A (a / 4), b64Sym A (a % 4 * 16 + b / 16),
      b64Sym A (b % 16 * 4), 61] = some [a, b]
    simp only [b64decode, hidx _ h1, hidx _ h2]
    rw [if_neg (hne _ h3)]
    simp only [hidx _ h3]
    have hmod : b % 16 * 4 % 4 = 0 := by omega
    simp [hmod]
    omega
  | a :: b :: c :: rest, hx => by
    have ha : a < 256 := hx a (by simp)
    have hb : b < 256 := hx b (by simp)
    have hc : c < 256 := hx c (by simp)
    have h1 : a / 4 < 64 := by omega
    have h2 : a % 4 * 16 + b / 16 < 64 := by omega
    have h3 : b % 16 * 4 + c / 64 < 64 := by omega
    have h4 : c % 64 < 64 := by omega
    have hrest : b64decode A (b64encode A rest) = some rest :=
      b64_roundtrip A hidx hne rest (fun b hb => hx b (by simp [hb]))
    show b64decode A (b64Sym A (a / 4) :: b64Sym A (a % 4 * 16 + b / 16) ::
      b64Sym A (b % 16 * 4 + c / 64) :: b64Sym A (c % 64) :: b64encode A rest)
        = some (a :: b :: c :: rest)
    simp only [b64decode, hidx _ h1, hidx _ h2]
    rw [if_neg (hne _ h3)]
    simp only [hidx _ h3]
    rw [if_neg (hne _ h4)]
    simp only [hidx _ h4, hrest, Option.map_some]
    simp
    omega

theorem b64encode_chars (A : List Nat) :
    ∀ x : List Nat, (∀ b ∈ x, b < 256) →
      ∀ c ∈ b64encode A x, (∃ w, w < 64 ∧ c = b64Sym A w) ∨ c = 61
  | [], _ => by simp [b64encode]
  | [a], hx => by
    have ha : a < 256 := hx a (by simp)
    intro c hc
    show _ ∨ _
    rw [show b64encode A [a] = [b64Sym A (a / 4), b64Sym A (a % 4 * 16), 61, 61]
      from rfl] at hc
    rcases List.mem_cons.mp hc with h | hc
    · exact Or.inl ⟨a / 4, by omega, h⟩
    rcases List.mem_cons.mp hc with h | hc
    · exact Or.inl ⟨a % 4 * 16, by omega, h⟩
    rcases List.mem_cons.mp hc with h | hc
    · exact Or.inr h
    rcases List.mem_cons.mp hc with h | hc
    · exact Or.inr h
    · simp at hc
  | [a, b], hx => by
    have ha : a < 256 := hx a (by simp)
    have hb : b < 256 := hx b (by simp)
    intro c hc
    show _ ∨ _
    rw [show b64encode A [a, b] = [b64Sym A (a / 4), b64Sym A (a % 4 * 16 + b / 16),
      b64Sym A (b % 16 * 4), 61] from rfl] at hc
    rcases List.mem_cons.mp hc with h | hc
    · exact Or.inl ⟨a / 4, by omega, h⟩
    rcases List.mem_cons.mp hc with h | hc
    · exact Or.inl ⟨a % 4 * 16 + b / 16, by omega, h⟩
    rcases List.mem_cons.mp hc with h | hc
    · exact Or.inl ⟨b % 16 * 4, by omega, h⟩
    rcases List.mem_cons.mp hc with h | hc
    · exact Or.inr h
    · simp at hc
  | a :: b :: c :: rest, hx => by
    have ha : a < 256 := hx a (by simp)
    have hb : b < 256 := hx b (by simp)
    have hc : c < 256 := hx c (by simp)
    intro d hd
    have hrest := b64encode_chars A rest (fun b hb => hx b (by simp [hb]))
    show _ ∨ _
    rw [show b64encode A (a :: b :: c :: rest)
      = b64Sym A (a / 4) :: b64Sym A (a % 4 * 16 + b / 16) ::
          b64Sym A (b % 16 * 4 + c / 64) :: b64Sym A (c % 64) :: b64encode A rest
      from rfl] at hd
    rcases List.mem_cons.mp hd with h | hd
    · exact Or.inl ⟨a / 4, by omega, h⟩
    rcases List.mem_cons.mp hd with h | hd
    · exact Or.inl ⟨a % 4 * 16 + b / 16, by omega, h⟩
    rcases List.mem_cons.mp hd with h | hd
    · exact Or.inl ⟨b % 16 * 4 + c / 64, by omega, h⟩
    rcases List.mem_cons.mp hd with h | hd
    · exact Or.inl ⟨c % 64, by omega, h⟩
    · exact hrest d hd

theorem b64decode_agree (A B : List Nat) :
    ∀ (s : List Nat) (y : List Nat),
      (∀ c ∈ s, ∀ v, b64Index A c = some v → b64Index B c = some v) →
      b64decode A s = some y → b64decode B s = some y
  | [], y, _, hdec => hdec
  | [c1], y, _, hdec => by simp [b64decode] at hdec
  | [c1, c2], y, _, hdec => by simp [b64decode] at hdec
  | [c1, c2, c3], y, _, hdec => by simp [b64decode] at hdec
  | c1 :: c2 :: c3 :: c4 :: rest, y, hch, hdec => by
    cases h1 : b64Index A c1 with
    | none => simp [b64decode, h1] at hdec
    | some v1 =>
      cases h2 : b64Index A c2 with
      | none => simp [b64decode, h1, h2] at hdec
      | some v2 =>
        have hb1 := hch c1 (by simp) v1 h1
        have hb2 := hch c2 (by simp) v2 h2
        simp only [b64decode, h1, h2] at hdec
        simp only [b64decode, hb1, hb2]
        by_cases hc3 : c3 = 61
        · rw [if_pos hc3] at hdec
          rw [if_pos hc3]
          exact hdec
        · rw [if_neg hc3] at hdec
          rw [if_neg hc3]
          cases h3 : b64Index A c3 with
          | none => rw [h3] at hdec; exact absurd hdec (by simp)
          | some v3 =>
            have hb3 := hch c3 (by simp) v3 h3
            rw [h3] at hdec
            rw [hb3]
            simp only [] at hdec ⊢
            by_cases hc4 : c4 = 61
            · rw [if_pos hc4] at hdec
              rw [if_pos hc4]
              exact hdec
            · rw [if_neg hc4] at hdec
              rw [if_neg hc4]
              cases h4 : b64Index A c4 with
              | none => rw [h4] at hdec; exact absurd hdec (by simp)
              | some v4 =>
                have hb4 := hch c4 (by simp) v4 h4
                rw [h4] at hdec
                rw [hb4]
                simp only [] at hdec ⊢
                cases hrest : b64decode A rest with
                | none => rw [hrest] at hdec; exact absurd hdec (by simp)
                | some tail =>
                  rw [hrest] at hdec
                  rw [b64decode_agree A B rest tail
                    (fun c hc v hv => hch c (by simp [hc]) v hv) hrest]
                  exact hdec

theorem b64decode_chars (A : List Nat) :
    ∀ (s : List Nat) (y : List Nat), b64decode A s = some y →
      ∀ c ∈ s, b64Index A c ≠ none ∨ c = 61
  | [], y, _, c, hc => by simp at hc
  | [c1], y, hdec, c, hc => by simp [b64decode] at hdec
  | [c1, c2], y, hdec, c, hc => by simp [b64decode] at hdec
  | [c1, c2, c3], y, hdec, c, hc => by simp [b64decode] at hdec
  | c1 :: c2 :: c3 :: c4 :: rest, y, hdec, c, hc => by
    cases h1 : b64Index A c1 with
    | none => simp [b64decode, h1] at hdec
    | some v1 =>
      cases h2 : b64Index A c2 with
      | none => simp [b64decode, h1, h2] at hdec
      | some v2 =>
        simp only [b64decode, h1, h2] at hdec
        rcases List.mem_cons.mp hc with h | hc
        · subst h; exact Or.inl (by simp [h1])
        rcases List.mem_cons.mp hc with h | hc
        · subst h; exact Or.inl (by simp [h2])
        by_cases hc3 : c3 = 61
        · rw [if_pos hc3] at hdec
          by_cases hcond : c4 = 61 ∧ rest = [] ∧ v2 % 16 = 0
          · rcases List.mem_cons.mp hc with h | hc
            · exact Or.inr (h.trans hc3)
            rcases List.mem_cons.mp hc with h | hc
            · exact Or.inr (h.trans hcond.1)
            · rw [hcond.2.1] at hc; simp at hc
          · rw [if_neg hcond] at hdec
            exact absurd hdec (by simp)
        · rw [if_neg hc3] at hdec
          cases h3 : b64Index A c3 with
          | none => rw [h3] at hdec; exact absurd hdec (by simp)
          | some v3 =>
            rw [h3] at hdec
            simp only [] at hdec
            rcases List.mem_cons.mp hc with h | hc
            · subst h; exact Or.inl (by simp [h3])
            by_cases hc4 : c4 = 61
            · rw [if_pos hc4] at hdec
              by_cases hcond : rest = [] ∧ v3 % 4 = 0
              · rcases List.mem_cons.mp hc with h | hc
                · exact Or.inr (h.trans hc4)
                · rw [hcond.1] at hc; simp at hc
              · rw [if_neg hcond] at hdec
                exact absurd hdec (by simp)
            · rw [if_neg hc4] at hdec
              cases h4 : b64Index A c4 with
              | none => rw [h4] at hdec; exact absurd hdec (by simp)
              | some v4 =>
                rw [h4] at hdec
                simp only [] at hdec
                rcases List.mem_cons.mp hc with h | hc
                · subst h; exact Or.inl (by simp [h4])
                cases hrest : b64decode A rest with
                | none => rw [hrest] at hdec; exact absurd hdec (by simp)
                | some tail =>
                  exact b64decode_chars A rest tail hrest c hc

/-! ## C5: base64 decoder acceptance -/

/-- C5 counterexample: for the byte string `[255]`, the URL-safe encoding
is the ASCII string `_w==` and `decode_b64` rejects it (STANDARD alphabet
only); the standard encoding with its trailing padding stripped is `/w`
and both `decode_b64` and the token decoder reject it (canonical padding
required, missing padding is not normalized). -/
theorem decodeB64_rejects_urlsafe_and_missing_padding :
    b64encode urlAlphabet [255] = [95, 119, 61, 61]
      ∧ decodeB64 [95, 119, 61, 61] = none
      ∧ b64encode stdAlphabet [255] = [47, 119, 61, 61]
      ∧ decodeB64 [47, 119] = none
      ∧ tokenDecode [47, 119] = none := by
  decide

/-- C5 (amended): `decode_b64` accepts exactly canonically padded
standard-alphabet base64 and roundtrips it; the token decoder of
`decrypt_secrets_internal` accepts canonically padded input in both
alphabets and roundtrips it; a string containing a character outside both
alphabets (other than the padding character) is rejected by both
decoders.  Missing padding is rejected, not normalized (counterexample
above). -/
theorem base64_decoders_roundtrip (x : List Nat) (hx : ∀ b ∈ x, b < 256) :
    decodeB64 (encodeB64 x) = some x
      ∧ tokenDecode (b64encode urlAlphabet x) = some x
      ∧ tokenDecode (b64encode stdAlphabet x) = some x
      ∧ (∀ s c, c ∈ s → b64Index stdAlphabet c = none →
          b64Index urlAlphabet c = none → c ≠ 61 →
          decodeB64 s = none ∧ tokenDecode s = none) := by
  have hstd : b64decode stdAlphabet (b64encode stdAlphabet x) = some x :=
    b64_roundtrip stdAlphabet stdAlphabet_index stdAlphabet_ne_pad x hx
  have hurl : b64decode urlAlphabet (b64encode urlAlphabet x) = some x :=
    b64_roundtrip urlAlphabet urlAlphabet_index urlAlphabet_ne_pad x hx
  refine ⟨hstd, by rw [tokenDecode, hurl], ?_, ?_⟩
  · rw [tokenDecode]
    cases hu : b64decode urlAlphabet (b64encode stdAlphabet x) with
    | none => exact hstd
    | some y =>
      have hy : b64decode stdAlphabet (b64encode stdAlphabet x) = some y := by
        refine b64decode_agree urlAlphabet stdAlphabet _ y ?_ hu
        intro c hcmem v hv
        rcases b64encode_chars stdAlphabet x hx c hcmem with ⟨w, hw, hcw⟩ | hc61
        · subst hcw
          rcases url_index_of_std_sym w hw with hnone | heq
          · rw [hnone] at hv; exact absurd hv (by simp)
          · rw [← heq]; exact hv
        · subst hc61
          rw [show b64Index urlAlphabet 61 = none from by decide] at hv
          exact absurd hv (by simp)
      rw [hstd] at hy
      injection hy with h
      subst h
      rfl
  · intro s c hcs hstd0 hurl0 hc61
    constructor
    · cases hd : b64decode stdAlphabet s with
      | none => exact hd
      | some y =>
        rcases b64decode_chars stdAlphabet s y hd c hcs with h | h
        · exact absurd hstd0 h
        · exact absurd h hc61
    · rw [tokenDecode]
      cases hd : b64decode urlAlphabet s with
      | none =>
        cases hd2 : b64decode stdAlphabet s with
        | none => rfl
        | some y =>
          rcases b64decode_chars stdAlphabet s y hd2 c hcs with h | h
          · exact absurd hstd0 h
          · exact absurd h hc61
      | some y =>
        rcases b64decode_chars urlAlphabet s y hd c hcs with h | h
        · exact absurd hurl0 h
        · exact absurd h hc61

/-- Witness for C5 (amended): the concrete byte string `[72, 105]` (ASCII
`Hi`) roundtrips through both decoders, and the ASCII string `*A==`
(invalid character 42) is rejected by both. -/
theorem base64_decoders_roundtrip_witness :
    ((∀ b ∈ [72, 105], b < 256)
        ∧ decodeB64 (encodeB64 [72, 105]) = some [72, 105]
        ∧ tokenDecode (b64encode urlAlphabet [72, 105]) = some [72, 105]
        ∧ tokenDecode (b64encode stdAlphabet [72, 105]) = some [72, 105])
      ∧ decodeB64 [42, 65, 61, 61] = none ∧ tokenDecode [42, 65, 61, 61] = none := by
  have hx : ∀ b ∈ [72, 105], b < 256 := by decide
  have h := base64_decoders_roundtrip [72, 105] hx
  exact ⟨⟨hx, h.1, h.2.1, h.2.2.1⟩,
    h.2.2.2 [42, 65, 61, 61] 42 (by decide) (by decide) (by decide) (by decide)⟩

/-! ## C6: envelope failure attribution -/

/-- C6: in `decrypt_secrets_internal`, when the base64 fields of the first
step decode, a failure of the first secretbox (master key under the KEK)
is reported as the incorrect-password error; once that step succeeds the
result is never the incorrect-password error, a failure to decrypt the
secret key under the master key is its own distinct error, and a failure
to open the sealed-box token is its own distinct error. -/
theorem decryptSecrets_error_attribution
    (sbOpen sealedOpen : List Nat → List Nat → List Nat → Option (List Nat))
    (kek : List Nat) (ka : KeyAttributes)
    (encTok plainTok : Option (List Nat)) (ek kn : List Nat)
    (h1 : decodeB64 ka.encryptedKey = some ek)
    (h2 : decodeB64 ka.keyDecryptionNonce = some kn) :
    (sbOpen ek kn kek = none →
      decryptSecretsInternal sbOpen sealedOpen kek ka encTok plainTok
        = .error .incorrectPassword)
    ∧ ∀ mk, sbOpen ek kn kek = some mk →
        (decryptSecretsInternal sbOpen sealedOpen kek ka encTok plainTok
            ≠ .error .incorrectPassword)
        ∧ ∀ esk skn, decodeB64 ka.encryptedSecretKey = some esk →
            decodeB64 ka.secretKeyDecryptionNonce = some skn →
            (sbOpen esk skn mk = none →
              decryptSecretsInternal sbOpen sealedOpen kek ka encTok plainTok
                = .error .failedToDecryptSecretKey)
            ∧ ∀ sk pk stok et, sbOpen esk skn mk = some sk →
                encTok = some et → decodeB64 ka.publicKey = some pk →
                decodeB64 et = some stok → sealedOpen stok pk sk = none →
                decryptSecretsInternal sbOpen sealedOpen kek ka encTok plainTok
                  = .error .failedToDecryptToken := by
  refine ⟨fun hnone => by simp only [decryptSecretsInternal, h1, h2, hnone],
    fun mk hmk => ⟨?_, fun esk skn h3 h4 =>
      ⟨fun hsk => by simp only [decryptSecretsInternal, h1, h2, hmk, h3, h4, hsk],
        fun sk pk stok et hsk het hpk hstok hsealed => by
          subst het
          simp only [decryptSecretsInternal, h1, h2, hmk, h3, h4, hsk, hpk,
            hstok, hsealed]⟩⟩⟩
  cases h3 : decodeB64 ka.encryptedSecretKey with
  | none => simp [decryptSecretsInternal, h1, h2, hmk, h3]
  | some esk =>
    cases h4 : decodeB64 ka.secretKeyDecryptionNonce with
    | none => simp [decryptSecretsInternal, h1, h2, hmk, h3, h4]
    | some skn =>
      cases h5 : sbOpen esk skn mk with
      | none => simp [decryptSecretsInternal, h1, h2, hmk, h3, h4, h5]
      | some sk =>
        cases encTok with
        | some et =>
          cases h6 : decodeB64 ka.publicKey with
          | none => simp [decryptSecretsInternal, h1, h2, hmk, h3, h4, h5, h6]
          | some pk =>
            cases h7 : decodeB64 et with
            | none => simp [decryptSecretsInternal, h1, h2, hmk, h3, h4, h5, h6, h7]
            | some stok =>
              cases h8 : sealedOpen stok pk sk with
              | none =>
                simp [decryptSecretsInternal, h1, h2, hmk, h3, h4, h5, h6, h7, h8]
              | some token =>
                simp [decryptSecretsInternal, h1, h2, hmk, h3, h4, h5, h6, h7, h8]
        | none =>
          cases plainTok with
          | none => simp [decryptSecretsInternal, h1, h2, hmk, h3, h4, h5]
          | some plain =>
            cases h6 : tokenDecode plain with
            | none => simp [decryptSecretsInternal, h1, h2, hmk, h3, h4, h5, h6]
            | some token => simp [decryptSecretsInternal, h1, h2, hmk, h3, h4, h5, h6]

/-- Witness for C6: with concrete oracles, a first-step failure yields the
incorrect-password error, and with a first and second step that succeed
but a sealed box that fails, the result is the distinct token error. -/
theorem decryptSecrets_error_attribution_witness :
    (decodeB64 wKeyAttributes.encryptedKey = some [0]
        ∧ decodeB64 wKeyAttributes.keyDecryptionNonce = some [0])
      ∧ decryptSecretsInternal (fun _ _ _ => none) (fun _ _ _ => none) []
          wKeyAttributes none none = .error .incorrectPassword
      ∧ decryptSecretsInternal (fun _ _ _ => some [1]) (fun _ _ _ => none) []
          wKeyAttributes (some [65, 65, 61, 61]) none
          = .error .failedToDecryptToken := by
  have h1 : decodeB64 wKeyAttributes.encryptedKey = some [0] := by decide
  have h2 : decodeB64 wKeyAttributes.keyDecryptionNonce = some [0] := by decide
  refine ⟨⟨h1, h2⟩, ?_, ?_⟩
  · exact (decryptSecrets_error_attribution (fun _ _ _ => none)
      (fun _ _ _ => none) [] wKeyAttributes none none [0] [0] h1 h2).1 rfl
  · exact ((((decryptSecrets_error_attribution (fun _ _ _ => some [1])
      (fun _ _ _ => none) [] wKeyAttributes (some [65, 65, 61, 61]) none [0] [0]
      h1 h2).2 [1] rfl).2 [0] [0] (by decide) (by decide)).2 [1] [0] [0]
      [65, 65, 61, 61] rfl rfl (by decide) (by decide) rfl)

/-! ## C7: SRP proof computation before set_b -/

/-- C7 counterexample: for a client on which `set_b` has not been called,
`compute_m1` and `verify_m2` take the panic path of `expect` — the source
has no build-profile distinction and no error return, so the claimed
WrongState error of release builds does not exist: the outcome is the
panic outcome, not an error outcome, in every build. -/
theorem computeM1_panics_never_wrongstate :
    computeM1 { verifier := none } = .panicked
      ∧ (computeM1 { verifier := none }).isPanic = true
      ∧ verifyM2 { verifier := none } [] = .panicked
      ∧ (verifyM2 { verifier := none } []).isPanic = true := by
  exact ⟨rfl, rfl, rfl, rfl⟩

/-- C7 (amended): calling `compute_m1` or `verify_m2` before `set_b` is a
programming error that panics through `expect` in every build profile
(debug and release alike); no WrongState error value is ever returned. -/
theorem computeM1_before_setB_panics (c : SrpAuthClient)
    (h : c.verifier = none) :
    computeM1 c = .panicked ∧ ∀ m2, verifyM2 c m2 = .panicked := by
  constructor
  · simp only [computeM1, h]
  · intro m2
    simp only [verifyM2, h]

/-- Witness for C7 (amended): the concrete verifier-free client. -/
theorem computeM1_before_setB_panics_witness :
    (({ verifier := none } : SrpAuthClient).verifier = none)
      ∧ computeM1 { verifier := none } = .panicked
      ∧ ∀ m2, verifyM2 { verifier := none } m2 = .panicked := by
  have h := computeM1_before_setB_panics { verifier := none } rfl
  exact ⟨rfl, h.1, h.2⟩

/-! ## C10: subkey derivation context handling -/

theorem ctx8_take (context : List Nat) :
    ctx8 context
      = context.take 8 ++ List.replicate (8 - (context.take 8).length) 0 := by
  rw [ctx8]
  simp only [CONTEXT_BYTES, List.length_take]
  rcases le_total context.length 8 with h | h
  · rw [min_eq_left h, List.take_length, List.take_of_length_le h,
      min_eq_right h]
  · rw [min_eq_right h, min_eq_left h]

/-- C10: `derive_subkey` never rejects a context argument by its length:
for a 32-byte key and a subkey length in range, the result is exactly the
KDF applied to the first `min (length context) 8` bytes of the context
zero-filled to 8 bytes, so contexts longer than 8 bytes are silently
truncated and two contexts with the same zero-padded 8-byte prefix give
identical results. -/
theorem deriveSubkey_context_truncation
    (kdf : Nat → Nat → List Nat → List Nat → Option (List Nat))
    (key : List Nat) (subkeyLen subkeyId : Nat)
    (hkey : key.length = KDF_KEY_BYTES)
    (hmin : SUBKEY_BYTES_MIN ≤ subkeyLen) (hmax : subkeyLen ≤ SUBKEY_BYTES_MAX) :
    (∀ context, deriveSubkey kdf key subkeyLen subkeyId context
        = match kdf subkeyLen subkeyId (ctx8 context) key with
          | none => .error .derivationFailed
          | some subkey => .ok subkey)
    ∧ (∀ context,
        deriveSubkey kdf key subkeyLen subkeyId context ≠ .error .invalidKeyLength
        ∧ deriveSubkey kdf key subkeyLen subkeyId context ≠ .error .invalidParams)
    ∧ (∀ context, deriveSubkey kdf key subkeyLen subkeyId context
        = deriveSubkey kdf key subkeyLen subkeyId (context.take 8))
    ∧ (∀ c1 c2, ctx8 c1 = ctx8 c2 →
        deriveSubkey kdf key subkeyLen subkeyId c1
          = deriveSubkey kdf key subkeyLen subkeyId c2) := by
  have hunfold : ∀ context, deriveSubkey kdf key subkeyLen subkeyId context
      = match kdf subkeyLen subkeyId (ctx8 context) key with
        | none => .error .derivationFailed
        | some subkey => .ok subkey := by
    intro context
    rw [deriveSubkey, if_neg (by simp [hkey]), if_neg (by simp [hmin, hmax])]
  refine ⟨hunfold, ?_, ?_, ?_⟩
  · intro context
    rw [hunfold]
    cases kdf subkeyLen subkeyId (ctx8 context) key with
    | none => exact ⟨by simp, by simp⟩
    | some subkey => exact ⟨by simp, by simp⟩
  · intro context
    rw [hunfold, hunfold]
    have : ctx8 (context.take 8) = ctx8 context := by
      rw [ctx8_take, ctx8_take, List.take_take]
      simp
    rw [this]
  · intro c1 c2 hc
    rw [hunfold, hunfold, hc]

/-- Witness for C10: the echo KDF oracle with a 10-byte and an 8-byte
context agreeing on their first 8 bytes gives identical subkeys, and an
oversized context is not rejected. -/
theorem deriveSubkey_context_truncation_witness :
    ((List.replicate 32 0).length = KDF_KEY_BYTES
        ∧ SUBKEY_BYTES_MIN ≤ 32 ∧ 32 ≤ SUBKEY_BYTES_MAX)
      ∧ deriveSubkey wKdf (List.replicate 32 0) 32 1 (List.replicate 10 7)
          = deriveSubkey wKdf (List.replicate 32 0) 32 1 (List.replicate 8 7)
      ∧ deriveSubkey wKdf (List.replicate 32 0) 32 1 (List.replicate 10 7)
          = .ok (List.replicate 8 7) := by
  have h := deriveSubkey_context_truncation wKdf (List.replicate 32 0) 32 1
    (by decide) (by decide) (by decide)
  refine ⟨⟨by decide, by decide, by decide⟩, ?_, by rfl⟩
  exact h.2.2.2 (List.replicate 10 7) (List.replicate 8 7) (by decide)

/-! ## Datastore lemmas -/

theorem mem_insertByUpdatedDesc (s a : SessionRow) :
    ∀ l, (a ∈ insertByUpdatedDesc s l) ↔ a = s ∨ a ∈ l
  | [] => by simp [insertByUpdatedDesc]
  | t :: rest => by
    rw [insertByUpdatedDesc]
    by_cases h : t.updatedAt ≤ s.updatedAt
    · simp [h]
    · rw [if_neg h]
      simp only [List.mem_cons, mem_insertByUpdatedDesc s a rest]
      tauto

theorem mem_sortByUpdatedDesc (a : SessionRow) :
    ∀ l, (a ∈ sortByUpdatedDesc l) ↔ a ∈ l
  | [] => Iff.rfl
  | s :: rest => by
    rw [sortByUpdatedDesc, mem_insertByUpdatedDesc, mem_sortByUpdatedDesc a rest]
    simp

theorem sessionRow_uuid_unique (l : List SessionRow)
    (h : l.Pairwise (fun a b => a.uuid ≠ b.uuid)) :
    ∀ a ∈ l, ∀ b ∈ l, a.uuid = b.uuid → a = b := by
  induction l with
  | nil => simp
  | cons x rest ih =>
    rcases List.pairwise_cons.mp h with ⟨hx, hrest⟩
    intro a ha b hb heq
    rcases List.mem_cons.mp ha with ha1 | ha2
    · rcases List.mem_cons.mp hb with hb1 | hb2
      · rw [ha1, hb1]
      · subst ha1
        exact absurd heq (hx b hb2)
    · rcases List.mem_cons.mp hb with hb1 | hb2
      · subst hb1
        exact absurd heq.symm (hx a ha2)
      · exact ih hrest a ha2 b hb2 heq

theorem tombstoneSession_uuid (u : Nat) (n : Int) (s : SessionRow) :
    (tombstoneSession u n s).uuid = s.uuid := by
  rw [tombstoneSession]
  split <;> rfl

theorem tombstoneSession_not_live (u : Nat) (n : Int) (s : SessionRow) :
    liveSessionPred u (tombstoneSession u n s) = false := by
  rw [tombstoneSession]
  by_cases h : liveSessionPred u s
  · rw [if_pos h]
    simp [liveSessionPred]
  · rw [if_neg h]
    simpa using h

theorem deleteSession_msgs_filter (u : Nat) (n : Int) (msgs : List MessageRow) :
    (msgs.map (tombstoneMessage u n)).filter
      (fun m => m.sessionUuid = u ∧ m.deletedAt = none) = [] := by
  rw [List.filter_eq_nil_iff]
  intro m hm
  obtain ⟨m0, hm0, rfl⟩ := List.mem_map.mp hm
  rw [tombstoneMessage]
  by_cases hc : m0.sessionUuid = u ∧ m0.deletedAt = none
  · rw [if_pos hc]
    simp
  · rw [if_neg hc]
    simpa using hc

/-! ## C8: delete_session -/

/-- C8: `delete_session` returns `NotFound` exactly when no live session
row with the uuid exists (missing or already tombstoned, transaction rolled
back); on success the session row carries `deleted_at = now`,
`updated_at = now` and `needs_sync`, every message of the session is
tombstoned, the session no longer appears in `get_session` or
`list_sessions`, `get_messages` of the session is empty, and
`get_pending_deletions` lists the session exactly when its row had a
remote id (had been marked synced) before the call. -/
theorem deleteSession_spec (st : DbState) (uuid : Nat) (now : Int)
    (huniq : st.sessions.Pairwise (fun a b => a.uuid ≠ b.uuid)) :
    (deleteSession st uuid now = .error .notFoundSession
        ↔ ∀ s ∈ st.sessions, ¬(s.uuid = uuid ∧ s.deletedAt = none))
    ∧ ∀ st2, deleteSession st uuid now = .ok st2 →
        getSession st2 uuid = none
        ∧ (∀ s ∈ listSessions st2, s.uuid ≠ uuid)
        ∧ getMessages st2 uuid = []
        ∧ (∀ s ∈ st2.sessions, s.uuid = uuid →
            s.deletedAt = some now ∧ s.updatedAt = now ∧ s.needsSync = true)
        ∧ (∀ m ∈ st2.messages, m.sessionUuid = uuid → m.deletedAt ≠ none)
        ∧ ((EntityType.session, uuid) ∈ getPendingDeletions st2
            ↔ ∃ s ∈ st.sessions, s.uuid = uuid ∧ s.deletedAt = none
                ∧ s.remoteId ≠ none) := by
  constructor
  · simp only [deleteSession]
    by_cases h0 : st.sessions.countP (liveSessionPred uuid) = 0
    · rw [if_pos h0]
      constructor
      · intro _ s hs hlive
        have hthis := List.countP_eq_zero.mp h0 s hs
        simp only [liveSessionPred, decide_eq_true_eq] at hthis
        exact hthis hlive
      · intro _
        rfl
    · rw [if_neg h0]
      obtain ⟨s, hs, hlive⟩ := List.countP_pos.mp (Nat.pos_of_ne_zero h0)
      simp only [liveSessionPred, decide_eq_true_eq] at hlive
      constructor
      · intro hcontra
        exact absurd hcontra (by simp)
      · intro hall
        exact absurd hlive (hall s hs)
  · intro st2 hok
    simp only [deleteSession] at hok
    by_cases h0 : st.sessions.countP (liveSessionPred uuid) = 0
    · rw [if_pos h0] at hok
      exact absurd hok (by simp)
    rw [if_neg h0] at hok
    obtain ⟨s1, hs1, hlive1⟩ := List.countP_pos.mp (Nat.pos_of_ne_zero h0)
    have hlive1p : s1.uuid = uuid ∧ s1.deletedAt = none := by
      simpa [liveSessionPred] using hlive1
    injection hok with hok
    have hsess : st2.sessions = st.sessions.map (tombstoneSession uuid now) := by
      rw [← hok]
    have hmsg : st2.messages = st.messages.map (tombstoneMessage uuid now) := by
      rw [← hok]
    refine ⟨?_, ?_, ?_, ?_, ?_, ?_⟩
    · rw [getSession, hsess, List.find?_eq_none]
      intro x hx
      obtain ⟨s, hs, rfl⟩ := List.mem_map.mp hx
      simp [tombstoneSession_not_live]
    · intro s hsmem
      rw [listSessions, mem_sortByUpdatedDesc, hsess] at hsmem
      obtain ⟨hmem, hdel⟩ := List.mem_filter.mp hsmem
      obtain ⟨s0, hs0, rfl⟩ := List.mem_map.mp hmem
      simp only [decide_eq_true_eq] at hdel
      intro huuid
      have hcontra : liveSessionPred uuid (tombstoneSession uuid now s0) = true := by
        simp [liveSessionPred, huuid, hdel]
      rw [tombstoneSession_not_live] at hcontra
      exact absurd hcontra (by simp)
    · rw [getMessages, hmsg, deleteSession_msgs_filter]
      rfl
    · intro s hsmem huuid
      rw [hsess] at hsmem
      obtain ⟨s0, hs0, rfl⟩ := List.mem_map.mp hsmem
      rw [tombstoneSession] at huuid ⊢
      by_cases hcase : liveSessionPred uuid s0
      · rw [if_pos hcase]
        exact ⟨rfl, rfl, rfl⟩
      · rw [if_neg hcase] at huuid
        have hs0eq : s0 = s1 := sessionRow_uuid_unique st.sessions huniq s0 hs0
          s1 hs1 (huuid.trans hlive1p.1.symm)
        subst hs0eq
        exact absurd (by simp [liveSessionPred, hlive1p.1, hlive1p.2]) hcase
    · intro m hmmem huuid
      rw [hmsg] at hmmem
      obtain ⟨m0, hm0, rfl⟩ := List.mem_map.mp hmmem
      rw [tombstoneMessage] at huuid ⊢
      by_cases hcase : m0.sessionUuid = uuid ∧ m0.deletedAt = none
      · rw [if_pos hcase]
        simp
      · rw [if_neg hcase] at huuid ⊢
        intro hnone
        exact hcase ⟨huuid, hnone⟩
    · rw [getPendingDeletions, hsess, hmsg]
      constructor
      · intro hmem
        rcases List.mem_append.mp hmem with hmem | hmem
        · obtain ⟨s, hsfil, hpair⟩ := List.mem_map.mp hmem
          obtain ⟨hsmem, hsq⟩ := List.mem_filter.mp hsfil
          obtain ⟨s0, hs0, rfl⟩ := List.mem_map.mp hsmem
          simp only [Prod.mk.injEq, decide_eq_true_eq] at hpair hsq
          rw [tombstoneSession_uuid] at hpair
          rw [tombstoneSession] at hsq
          by_cases hcase : liveSessionPred uuid s0
          · have hq0 : s0.uuid = uuid ∧ s0.deletedAt = none := by
              simpa [liveSessionPred] using hcase
            rw [if_pos hcase] at hsq
            exact ⟨s0, hs0, hq0.1, hq0.2, hsq.1⟩
          · rw [if_neg hcase] at hsq
            have hs0eq : s0 = s1 := sessionRow_uuid_unique st.sessions huniq
              s0 hs0 s1 hs1 (hpair.2.trans hlive1p.1.symm)
            subst hs0eq
            exact absurd (by simp [liveSessionPred, hlive1p.1, hlive1p.2]) hcase
        · obtain ⟨m, _, hpair⟩ := List.mem_map.mp hmem
          simp at hpair
      · intro hex
        obtain ⟨s0, hs0, huuid, hdel, hrem⟩ := hex
        have hlive0 : liveSessionPred uuid s0 = true := by
          simp [liveSessionPred, huuid, hdel]
        apply List.mem_append.mpr
        left
        have hq : (fun s => decide (s.remoteId ≠ none ∧ s.deletedAt ≠ none))
            (tombstoneSession uuid now s0) = true := by
          rw [tombstoneSession, if_pos hlive0]
          simpa using hrem
        have hmem2 : tombstoneSession uuid now s0
            ∈ (st.sessions.map (tombstoneSession uuid now)).filter
              (fun s => s.remoteId ≠ none ∧ s.deletedAt ≠ none) :=
          List.mem_filter.mpr ⟨List.mem_map_of_mem _ hs0, hq⟩
        have hfin := List.mem_map_of_mem
          (fun s => (EntityType.session, s.uuid)) hmem2
        simp only [tombstoneSession_uuid, huuid] at hfin
        exact hfin

/-- Witness for C8: the concrete one-session database. -/
theorem deleteSession_spec_witness :
    (wDb.sessions.Pairwise (fun a b => a.uuid ≠ b.uuid)
        ∧ deleteSession wDb 1 5 = .ok wDbDeleted)
      ∧ getSession wDbDeleted 1 = none
      ∧ getMessages wDbDeleted 1 = []
      ∧ ((EntityType.session, 1) ∈ getPendingDeletions wDbDeleted
          ↔ ∃ s ∈ wDb.sessions, s.uuid = 1 ∧ s.deletedAt = none
              ∧ s.remoteId ≠ none) := by
  have hu : wDb.sessions.Pairwise (fun a b => a.uuid ≠ b.uuid) := by
    simp [wDb]
  have hok : deleteSession wDb 1 5 = .ok wDbDeleted := by rfl
  have h := (deleteSession_spec wDb 1 5 hu).2 wDbDeleted hok
  exact ⟨⟨hu, hok⟩, h.1, h.2.2.1, h.2.2.2.2.2⟩

/-! ## C9: insert_message into a soft-deleted session -/

/-- C9: when the target session row exists but is soft-deleted, and the
sender is valid, `insert_message` succeeds: the message row is inserted
and returned, while the sessions table is left entirely unchanged
(`updated_at` is not bumped and `needs_sync` is not set), because the
session-update statement is filtered by `deleted_at IS NULL` and its
zero-row result is not checked. -/
theorem insertMessage_tombstoned_session (st : DbState) (su : Nat)
    (sender textBlob : List Nat) (parent : Option Nat)
    (attachmentsJson : Option (List Nat)) (msgUuid : Nat) (now : Int)
    (snd : Sender)
    (hsender : senderTryFrom sender = some snd)
    (hexists : ∃ s ∈ st.sessions, s.uuid = su)
    (hdead : ∀ s ∈ st.sessions, s.uuid = su → s.deletedAt ≠ none) :
    insertMessage st su sender textBlob parent attachmentsJson msgUuid now
      = .ok ({ uuid := msgUuid, sessionUuid := su, parent := parent,
               sender := snd, text := textBlob, attachments := attachmentsJson,
               createdAt := now, deletedAt := none },
             { sessions := st.sessions,
               messages := st.messages
                 ++ [{ uuid := msgUuid, sessionUuid := su, parent := parent,
                       sender := snd, text := textBlob,
                       attachments := attachmentsJson, createdAt := now,
                       deletedAt := none }] }) := by
  obtain ⟨s, hs, hsu⟩ := hexists
  simp only [insertMessage, hsender]
  rw [if_pos (List.any_eq_true.mpr ⟨s, hs, by simp [hsu]⟩)]
  have hcongr : ∀ a ∈ st.sessions, bumpSession su now a = a := by
    intro a ha
    rw [bumpSession, if_neg]
    simp only [liveSessionPred, decide_eq_true_eq]
    intro hand
    exact hdead a ha hand.1 hand.2
  rw [List.map_congr_left hcongr]
  simp

/-- Witness for C9: inserting into the concrete tombstoned-session
database succeeds and leaves the sessions table untouched. -/
theorem insertMessage_tombstoned_session_witness :
    (senderTryFrom [115, 101, 108, 102] = some Sender.selfUser
        ∧ (∃ s ∈ wDbTombstoned.sessions, s.uuid = 1)
        ∧ (∀ s ∈ wDbTombstoned.sessions, s.uuid = 1 → s.deletedAt ≠ none))
      ∧ insertMessage wDbTombstoned 1 [115, 101, 108, 102] [9] none none 11 7
          = .ok (wInserted,
              { sessions := wDbTombstoned.sessions,
                messages := wDbTombstoned.messages ++ [wInserted] }) := by
  have h1 : senderTryFrom [115, 101, 108, 102] = some Sender.selfUser := rfl
  have h2 : ∃ s ∈ wDbTombstoned.sessions, s.uuid = 1 := by decide
  have h3 : ∀ s ∈ wDbTombstoned.sessions, s.uuid = 1 → s.deletedAt ≠ none := by
    decide
  exact ⟨⟨h1, h2, h3⟩,
    insertMessage_tombstoned_session wDbTombstoned 1 [115, 101, 108, 102] [9]
      none none 11 7 Sender.selfUser h1 h2 h3⟩

end EnteSpec
